import Mathlib

/-!
Verification of the co-occurrence/PMI pipeline and the embedding-similarity
explorer of the bqml-scann tutorial notebook
(src/retail/recommendation-system/bqml-scann/01_train_bqml_mf_pmi.ipynb).

The SQL of sp_ComputePMI is embedded as operations on finite relations:
a table of (item_Id, group_Id) rows is a Finset of pairs (the raw relation
carries no duplicate (item, group) rows beyond the pair itself), and each
CREATE TABLE ... AS SELECT of the procedure becomes a Finset-level
definition.  Item and group identifiers are modelled as naturals; the SQL
compares item ids with < when forming pairs, which the natural order
models.  The Python explorer of cells 40 and 41 is embedded over lists,
with float arithmetic modelled over the real numbers (weights, which are
exact decimals in the claims, over the rationals).
-/

namespace PmiSpec

/-- The vw_item_groups relation: a finite set of (item_Id, group_Id) rows. -/
abbrev Rel := Finset (ℕ × ℕ)

/-- Items appearing in a relation (SELECT DISTINCT item_Id). -/
def itemsOf (R : Rel) : Finset ℕ := R.image Prod.fst

/-- COUNT(group_Id) ... GROUP BY item_Id: the number of rows of item i. -/
def freqOn (R : Rel) (i : ℕ) : ℕ := (R.filter (fun p => p.1 = i)).card

/-- COUNT(item_Id) ... GROUP BY group_Id: the number of rows of group g. -/
def groupSizeOn (R : Rel) (g : ℕ) : ℕ := (R.filter (fun p => p.2 = g)).card

/-- valid_items of sp_ComputePMI: items of the original relation whose
frequency there is at least min_item_frequency. -/
def validItems (R : Rel) (minFreq : ℕ) : Finset ℕ :=
  (itemsOf R).filter (fun i => minFreq ≤ freqOn R i)

/-- vw_item_groups restricted by WHERE item_Id IN (SELECT item_Id FROM valid_items),
the FROM/WHERE clause of the valid_groups subquery. -/
def restrictToValidItems (R : Rel) (minFreq : ℕ) : Rel :=
  R.filter (fun p => p.1 ∈ validItems R minFreq)

/-- valid_groups of sp_ComputePMI: computed over the relation already
restricted to valid items, keeping groups whose size there is BETWEEN 2
AND max_group_size. -/
def validGroups (R : Rel) (minFreq maxGroupSize : ℕ) : Finset ℕ :=
  ((restrictToValidItems R minFreq).image Prod.snd).filter
    (fun g => 2 ≤ groupSizeOn (restrictToValidItems R minFreq) g ∧
      groupSizeOn (restrictToValidItems R minFreq) g ≤ maxGroupSize)

/-- valid_item_groups: the original relation filtered to rows whose item is
a valid item and whose group is a valid group. -/
def validItemGroups (R : Rel) (minFreq maxGroupSize : ℕ) : Rel :=
  R.filter (fun p =>
    p.1 ∈ validItems R minFreq ∧ p.2 ∈ validGroups R minFreq maxGroupSize)

/-- The self-join of valid_item_groups on group_Id with a.item_Id < b.item_Id:
one element per joined row pair. -/
def coocJoinRows (V : Rel) : Finset ((ℕ × ℕ) × (ℕ × ℕ)) :=
  (V ×ˢ V).filter (fun r => r.1.2 = r.2.2 ∧ r.1.1 < r.2.1)

/-- SUM(cooc) GROUP BY item1_Id, item2_Id over the join (each joined row
contributes 1): the co-occurrence count of the ordered pair (a, b). -/
def cooc (V : Rel) (a b : ℕ) : ℕ :=
  ((coocJoinRows V).filter (fun r => r.1.1 = a ∧ r.2.1 = b)).card

/-- The pairs present in the first item_cooc table. -/
def coocSupport (V : Rel) : Finset (ℕ × ℕ) :=
  (coocJoinRows V).image (fun r => (r.1.1, r.2.1))

/-- The first item_cooc table: rows (item1_Id, item2_Id, cooc). -/
def coocTable (V : Rel) : Finset (ℕ × ℕ × ℕ) :=
  (coocSupport V).image (fun p => (p.1, p.2, cooc V p.1 p.2))

/-- The item_frequency table, computed from valid_item_groups:
rows (item_Id, frequency). -/
def itemFrequencyTable (V : Rel) : Finset (ℕ × ℕ) :=
  (itemsOf V).image (fun i => (i, freqOn V i))

/-- SET total = (SELECT SUM(frequency) FROM item_frequency). -/
def totalFrequency (V : Rel) : ℕ := ∑ i ∈ itemsOf V, freqOn V i

/-- item_cooc after the UNION ALL that appends, for every item of
item_frequency, the self pair (item_Id, item_Id, frequency). -/
def coocTable2 (V : Rel) : Finset (ℕ × ℕ × ℕ) :=
  coocTable V ∪ (itemFrequencyTable V).image (fun r => (r.1, r.1, r.2))

/-- The groups of valid_item_groups in which item i appears. -/
def groupsOfItem (V : Rel) (i : ℕ) : Finset ℕ :=
  (V.filter (fun p => p.1 = i)).image Prod.snd

/-- The triple join of the final statement of sp_ComputePMI: item_cooc a
joined with item_frequency b ON a.item1_Id = b.item_Id and with
item_frequency c ON a.item2_Id = c.item_Id.  An element is
((item1_Id, item2_Id, cooc), (b.item_Id, b.frequency), (c.item_Id, c.frequency)). -/
def finalJoinRows (V : Rel) : Finset ((ℕ × ℕ × ℕ) × (ℕ × ℕ) × (ℕ × ℕ)) :=
  ((coocTable2 V) ×ˢ (itemFrequencyTable V) ×ˢ (itemFrequencyTable V)).filter
    (fun r => r.1.1 = r.2.1.1 ∧ r.1.2.1 = r.2.2.1)

/-- LOG(a.cooc, 2) - LOG(b.frequency, 2) - LOG(c.frequency, 2) + LOG(total, 2),
the pmi column of the final item_cooc table, for one joined row.  The SQL
FLOAT64 arithmetic is modelled over the reals; LOG(x, 2) is log base 2. -/
noncomputable def pmiRow (V : Rel) (r : (ℕ × ℕ × ℕ) × (ℕ × ℕ) × (ℕ × ℕ)) : ℝ :=
  Real.logb 2 r.1.2.2 - Real.logb 2 r.2.1.2 - Real.logb 2 r.2.2.2 +
    Real.logb 2 (totalFrequency V)

/-- The PMI formula exactly as the spec states it (for comparison with the
pipeline's pmiRow): log2(cooc) - log2(freq1) - log2(freq2) + log2(total_frequency). -/
noncomputable def pmiFormulaSpec (c f1 f2 total : ℕ) : ℝ :=
  Real.logb 2 c - Real.logb 2 f1 - Real.logb 2 f2 + Real.logb 2 total

/-- SELECT item1_Id, item2_Id, cooc * pmi AS score of sp_TrainItemMatchingModel,
for one row of the final item_cooc table. -/
noncomputable def trainerScoreRow (V : Rel) (r : (ℕ × ℕ × ℕ) × (ℕ × ℕ) × (ℕ × ℕ)) : ℝ :=
  (r.1.2.2 : ℝ) * pmiRow V r

/-- ValidGroups as claim C2 describes it: the size filter computed on the
original, unfiltered membership relation. -/
def validGroupsFromOriginal (R : Rel) (maxGroupSize : ℕ) : Finset ℕ :=
  (R.image Prod.snd).filter
    (fun g => 2 ≤ groupSizeOn R g ∧ groupSizeOn R g ≤ maxGroupSize)

/-- Modelled from the spec: the negative-sample pair set of step 4,
all pairs (a, b) with a < b drawn from a chosen top-frequency item set.
The committed SQL of this step cannot run (it reads the undeclared variable
negative_sample_size and the nonexistent columns a.item and b.item), so the
pair formation follows the spec's words, with the top-N selection (whose
tie-break the spec leaves arbitrary) abstracted as the given item set. -/
def negativePairsFrom (topSet : Finset ℕ) : Finset (ℕ × ℕ) :=
  (topSet ×ˢ topSet).filter (fun p => p.1 < p.2)

/-- Modelled from the spec: the negative-sampling merge of step 4, matching
the merged/MAX SQL text of sp_ComputePMI: UNION ALL of the existing item_cooc
rows with one (item1_Id, item2_Id, 1) row per negative pair, then
SELECT item1_Id, item2_Id, MAX(cooc) ... GROUP BY item1_Id, item2_Id. -/
def mergeNegatives (T : Finset (ℕ × ℕ × ℕ)) (neg : Finset (ℕ × ℕ)) :
    Finset (ℕ × ℕ × ℕ) :=
  let merged := T ∪ neg.image (fun p => (p.1, p.2, (1 : ℕ)))
  (merged.image (fun r => (r.1, r.2.1))).image
    (fun p => (p.1, p.2,
      (merged.filter (fun r => r.1 = p.1 ∧ r.2.1 = p.2)).sup (fun r => r.2.2)))

/-- Concrete relation {(1,g1),(2,g1)}: two items sharing one group. -/
def relTwoItems : Rel := {(1, 1), (2, 1)}

/-- Concrete relation {(1,g1),(2,g1),(3,g1),(1,g2),(2,g2)}: item 3 appears
once, group 1 holds three items, group 2 holds two. -/
def relScenario : Rel := {(1, 1), (2, 1), (3, 1), (1, 2), (2, 2)}

/-- Concrete relation {(1,g1),(2,g1),(1,g2)}: group 2 is a singleton, so it
is filtered out and item 1's post-filter frequency drops from 2 to 1. -/
def relSingletonGroup : Rel := {(1, 1), (2, 1), (1, 2)}

end PmiSpec

namespace ExplorerSpec

/-- One element of a factor_weights list: {factor: int, weight: float}.
Weights are modelled as rationals (the exact decimals of the ML.WEIGHTS
export rows the claims mention). -/
structure WeightEntry where
  factor : ℕ
  weight : ℚ
deriving DecidableEq

/-- One row of the ML.WEIGHTS result: (feature, factor_weights).  Features
are item identifiers, modelled as naturals. -/
structure EmbeddingRow where
  feature : ℕ
  factor_weights : List WeightEntry
deriving DecidableEq

/-- The hard-coded embedding dimensionality of process_results:
emebedding = [0.0] * 100. -/
def embeddingDim : ℕ := 100

/-- emebedding[element['factor'] - 1] += element['weight']: add w into
position i of the vector (position arithmetic is the caller's factor - 1). -/
def bump (v : List ℚ) (i : ℕ) (w : ℚ) : List ℚ := v.set i (v.getD i 0 + w)

/-- The inner loop of process_results over one row's factor_weights list. -/
def applyRow (v : List ℚ) (ws : List WeightEntry) : List ℚ :=
  ws.foldl (fun acc e => bump acc (e.factor - 1) e.weight) v

/-- process_results for one item: start from [0.0] * 100 and fold the
factor_weights of every result row whose feature equals the item. -/
def itemEmbedding (results : List EmbeddingRow) (item : ℕ) : List ℚ :=
  (results.filter (fun r => r.feature = item)).foldl
    (fun acc r => applyRow acc r.factor_weights) (List.replicate embeddingDim 0)

/-- dot product of two weight vectors (pairwise product, summed). -/
def dotQ (v w : List ℚ) : ℚ := (List.zipWith (fun a b => a * b) v w).sum

/-- Euclidean norm of a weight vector, over the reals. -/
noncomputable def normR (v : List ℚ) : ℝ := Real.sqrt ((dotQ v v : ℚ) : ℝ)

/-- sklearn cosine_similarity of two vectors: dot(v, w) / (norm v * norm w). -/
noncomputable def cosineSim (v w : List ℚ) : ℝ :=
  ((dotQ v w : ℚ) : ℝ) / (normR v * normR w)

/-- round(x, 5) of the explorer loop: rounding to 5 decimal digits, modelled
as exact rounding of the real value to a rational with denominator 100000. -/
noncomputable def round5 (x : ℝ) : ℚ := ((round (x * 100000) : ℤ) : ℚ) / 100000

/-- similarity = round(cosine_similarity([embedding1], [embedding2])[0][0], 5). -/
noncomputable def roundedSim (v w : List ℚ) : ℚ := round5 (cosineSim v w)

/-- The candidate list built by the inner idx2 loop for query item q:
every queried item (q itself included, in list order) paired with its
rounded similarity to q. -/
noncomputable def candidates (emb : ℕ → List ℚ) (ids : List ℕ) (q : ℕ) :
    List (ℕ × ℚ) :=
  ids.map (fun j => (j, roundedSim (emb q) (emb j)))

/-- One insertion step of a stable descending sort by the similarity
component: a new element passes over earlier elements only when its key is
strictly larger, so original order is kept among equal keys.  This models
Python's stable sorted(..., key=similarity, reverse=True). -/
def insertDesc (a : ℕ × ℚ) : List (ℕ × ℚ) → List (ℕ × ℚ)
  | [] => [a]
  | b :: l => if b.2 ≤ a.2 then a :: b :: l else b :: insertDesc a l

/-- Stable descending sort by the similarity component (insertion sort). -/
def sortDesc : List (ℕ × ℚ) → List (ℕ × ℚ)
  | [] => []
  | a :: l => insertDesc a (sortDesc l)

/-- similar_items[1:] printed for query q: the stably sorted candidate list
with exactly its first element dropped. -/
noncomputable def similarList (emb : ℕ → List ℚ) (ids : List ℕ) (q : ℕ) :
    List (ℕ × ℚ) :=
  (sortDesc (candidates emb ids q)).drop 1

/-- The whole exploration loop of cell 41: one output entry per idx1 in
range(0, len(item_ids) - 1) - the last queried item gets no entry. -/
noncomputable def explorerOutput (emb : ℕ → List ℚ) (ids : List ℕ) :
    List (ℕ × List (ℕ × ℚ)) :=
  (List.range (ids.length - 1)).map
    (fun i => (ids.getD i 0, similarList emb ids (ids.getD i 0)))

/-- Embeddings used by concrete explorer inputs: item 20 carries the unit
vector [0, 1], every other item carries [1, 0]. -/
def embOrth (n : ℕ) : List ℚ := if n = 20 then [0, 1] else [1, 0]

/-- Embeddings used by concrete explorer inputs: item 30 carries the unit
vector [0, 1], items 10 and 20 both carry [1, 0]. -/
def embTie (n : ℕ) : List ℚ := if n = 30 then [0, 1] else [1, 0]

end ExplorerSpec

namespace PmiSpec

/-- Rows of the pairwise co-occurrence table are strictly ordered, straight
from the a.item_Id < b.item_Id join condition. -/
lemma coocTable_lt {V : Rel} {row : ℕ × ℕ × ℕ} (h : row ∈ coocTable V) :
    row.1 < row.2.1 := by
  simp only [coocTable, coocSupport, coocJoinRows, Finset.mem_image,
    Finset.mem_filter, Finset.mem_product] at h
  obtain ⟨p, ⟨r, ⟨-, -, hlt⟩, hr⟩, hrow⟩ := h
  subst hrow
  simpa [← hr] using hlt

/-- Rows of item_cooc after the self-pair UNION ALL are either strictly
ordered pairwise rows or self rows carrying an item frequency. -/
lemma mem_coocTable2 {V : Rel} {row : ℕ × ℕ × ℕ} (h : row ∈ coocTable2 V) :
    row ∈ coocTable V ∨
      ∃ i ∈ itemsOf V, row = (i, i, freqOn V i) := by
  rcases Finset.mem_union.mp h with h | h
  · exact Or.inl h
  · right
    simp only [itemFrequencyTable, Finset.mem_image] at h
    obtain ⟨r, ⟨i, hi, hri⟩, hrow⟩ := h
    exact ⟨i, hi, by rw [← hrow, ← hri]⟩

/-- Claim C1, counterexample: on the relation {(1,1),(2,1)} with
min_item_frequency 1 and max_group_size 100, the produced table contains the
self-pair (1, 1), so item1_Id < item2_Id fails on a produced row. -/
theorem c1_counterexample :
    ¬ (∀ row ∈ coocTable2 (validItemGroups relTwoItems 1 100),
        row.1 < row.2.1) := by decide

/-- Claim C1, amended: every row of the co-occurrence table after self-pair
addition satisfies item1_Id ≤ item2_Id, and rows coming from the pairwise
co-occurrence step satisfy the strict inequality item1_Id < item2_Id; the
appended self-pairs are exactly the rows with item1_Id = item2_Id. -/
theorem c1_pair_ordering (R : Rel) (m g : ℕ) (row : ℕ × ℕ × ℕ)
    (h : row ∈ coocTable2 (validItemGroups R m g)) :
    row.1 ≤ row.2.1 ∧
      (row ∈ coocTable (validItemGroups R m g) → row.1 < row.2.1) := by
  refine ⟨?_, fun hp => coocTable_lt hp⟩
  rcases mem_coocTable2 h with h | ⟨i, -, hrow⟩
  · exact (coocTable_lt h).le
  · simp [hrow]

/-- Witness for c1_pair_ordering at the relation {(1,1),(2,1)}. -/
theorem c1_pair_ordering_witness :
    ((1, 2, 1) : ℕ × ℕ × ℕ).1 ≤ ((1, 2, 1) : ℕ × ℕ × ℕ).2.1 ∧
      (((1, 2, 1) : ℕ × ℕ × ℕ) ∈ coocTable (validItemGroups relTwoItems 1 100) →
        ((1, 2, 1) : ℕ × ℕ × ℕ).1 < ((1, 2, 1) : ℕ × ℕ × ℕ).2.1) :=
  c1_pair_ordering relTwoItems 1 100 (1, 2, 1) (by decide)

/-- Claim C2, counterexample: on {(1,1),(2,1),(3,1),(1,2),(2,2)} with
min_item_frequency 2 and max_group_size 2, group 1 has three rows in the
original relation (too large) but only two rows after restriction to valid
items, so the group filter of the code differs from one computed on the
original relation. -/
theorem c2_counterexample :
    validGroups relScenario 2 2 ≠ validGroupsFromOriginal relScenario 2 := by
  decide

/-- Claim C2, amended: ValidItems is computed on the original relation;
ValidGroups is computed on the membership restricted to ValidItems (its size
filter counts only valid-item rows); the final membership is the original
relation restricted to valid items and valid groups, equivalently the
valid-item restriction further filtered by group validity. -/
theorem c2_filters (R : Rel) (m gmax : ℕ) :
    validItemGroups R m gmax =
      (restrictToValidItems R m).filter (fun p => p.2 ∈ validGroups R m gmax) ∧
    ∀ g : ℕ, g ∈ validGroups R m gmax ↔
      2 ≤ groupSizeOn (restrictToValidItems R m) g ∧
        groupSizeOn (restrictToValidItems R m) g ≤ gmax := by
  constructor
  · ext p
    simp only [validItemGroups, restrictToValidItems, Finset.mem_filter]
    tauto
  · intro g
    constructor
    · intro hg
      exact (Finset.mem_filter.mp hg).2
    · intro hg
      refine Finset.mem_filter.mpr ⟨?_, hg⟩
      have hpos : 0 < groupSizeOn (restrictToValidItems R m) g := by omega
      rw [groupSizeOn, Finset.card_pos] at hpos
      obtain ⟨p, hp⟩ := hpos
      rw [Finset.mem_filter] at hp
      exact Finset.mem_image.mpr ⟨p, hp.1, hp.2⟩

/-- Core counting argument for C3: for a < b, the summed join rows for the
pair (a, b) are in bijection with the groups shared by a and b. -/
lemma cooc_eq_card_sharedGroups (V : Rel) (a b : ℕ) (hab : a < b) :
    cooc V a b = (groupsOfItem V a ∩ groupsOfItem V b).card := by
  unfold cooc
  apply Finset.card_bij (fun r _ => r.1.2)
  · intro r hr
    simp only [coocJoinRows, Finset.mem_filter, Finset.mem_product] at hr
    obtain ⟨⟨⟨h1, h2⟩, hg, -⟩, ha, hb⟩ := hr
    refine Finset.mem_inter.mpr ⟨?_, ?_⟩
    · exact Finset.mem_image.mpr ⟨r.1, Finset.mem_filter.mpr ⟨h1, ha⟩, rfl⟩
    · exact Finset.mem_image.mpr ⟨r.2, Finset.mem_filter.mpr ⟨h2, hb⟩, hg.symm⟩
  · intro r1 hr1 r2 hr2 hg
    simp only [coocJoinRows, Finset.mem_filter, Finset.mem_product] at hr1 hr2
    obtain ⟨⟨-, hg1, -⟩, ha1, hb1⟩ := hr1
    obtain ⟨⟨-, hg2, -⟩, ha2, hb2⟩ := hr2
    have e1 : r1.1 = r2.1 := Prod.ext (ha1.trans ha2.symm) hg
    have e2 : r1.2 = r2.2 := Prod.ext (hb1.trans hb2.symm) (by rw [← hg1, ← hg2, e1])
    exact Prod.ext e1 e2
  · intro g hg
    obtain ⟨hga, hgb⟩ := Finset.mem_inter.mp hg
    obtain ⟨pa, hpa, hga'⟩ := Finset.mem_image.mp hga
    obtain ⟨pb, hpb, hgb'⟩ := Finset.mem_image.mp hgb
    rw [Finset.mem_filter] at hpa hpb
    have epa : pa = (a, g) := Prod.ext hpa.2 hga'
    have epb : pb = (b, g) := Prod.ext hpb.2 hgb'
    refine ⟨((a, g), (b, g)), ?_, rfl⟩
    exact Finset.mem_filter.mpr
      ⟨Finset.mem_filter.mpr
        ⟨Finset.mem_product.mpr ⟨epa ▸ hpa.1, epb ▸ hpb.1⟩, rfl, hab⟩, rfl, rfl⟩

/-- Claim C3: for two distinct items, the co-occurrence count recorded for
the canonical pair (min, max) in the pairwise step (before self-pair
addition and before any negative-sample merging) equals the number of valid
groups in which both appear. -/
theorem c3_cooc_counts (R : Rel) (m gmax a b : ℕ) (hab : a ≠ b) :
    cooc (validItemGroups R m gmax) (min a b) (max a b) =
      (groupsOfItem (validItemGroups R m gmax) a ∩
        groupsOfItem (validItemGroups R m gmax) b).card := by
  rcases hab.lt_or_lt with h | h
  · rw [min_eq_left h.le, max_eq_right h.le]
    exact cooc_eq_card_sharedGroups _ _ _ h
  · rw [min_eq_right h.le, max_eq_left h.le, Finset.inter_comm]
    exact cooc_eq_card_sharedGroups _ _ _ h

/-- Witness for c3_cooc_counts on the five-row scenario relation. -/
theorem c3_cooc_counts_witness :
    cooc (validItemGroups relScenario 1 10) (min 1 2) (max 1 2) =
      (groupsOfItem (validItemGroups relScenario 1 10) 1 ∩
        groupsOfItem (validItemGroups relScenario 1 10) 2).card :=
  c3_cooc_counts relScenario 1 10 1 2 (by decide)

/-- Rows of item_frequency record exactly the post-filter frequency of their
key item. -/
lemma mem_itemFrequencyTable {V : Rel} {r : ℕ × ℕ}
    (h : r ∈ itemFrequencyTable V) : r.2 = freqOn V r.1 := by
  simp only [itemFrequencyTable, Finset.mem_image] at h
  obtain ⟨i, -, hr⟩ := h
  rw [← hr]

/-- Items of the filtered relation are valid items. -/
lemma itemsOf_validItemGroups_subset (R : Rel) (m gmax : ℕ) :
    itemsOf (validItemGroups R m gmax) ⊆ validItems R m := by
  intro i hi
  simp only [itemsOf, Finset.mem_image] at hi
  obtain ⟨p, hp, hpi⟩ := hi
  simp only [validItemGroups, Finset.mem_filter] at hp
  exact hpi ▸ hp.2.1

/-- An item with no row in a relation has frequency zero there. -/
lemma freqOn_eq_zero_of_not_mem {R : Rel} {i : ℕ} (h : i ∉ itemsOf R) :
    freqOn R i = 0 := by
  rw [freqOn, Finset.card_eq_zero, Finset.filter_eq_empty_iff]
  intro p hp hpi
  exact h (Finset.mem_image.mpr ⟨p, hp, hpi⟩)

/-- Claim C4: for every row of the final joined table, the stored PMI equals
the spec formula evaluated at the pair's count, the post-filter frequencies
of item1 and item2, and the total frequency; the total frequency is the sum
of the (valid-item) frequencies; and the score handed to the trainer is
cooc * pmi. -/
theorem c4_pmi_formula (R : Rel) (m gmax : ℕ)
    (r : (ℕ × ℕ × ℕ) × (ℕ × ℕ) × (ℕ × ℕ))
    (hr : r ∈ finalJoinRows (validItemGroups R m gmax)) :
    pmiRow (validItemGroups R m gmax) r =
      pmiFormulaSpec r.1.2.2
        (freqOn (validItemGroups R m gmax) r.1.1)
        (freqOn (validItemGroups R m gmax) r.1.2.1)
        (totalFrequency (validItemGroups R m gmax)) ∧
    trainerScoreRow (validItemGroups R m gmax) r =
      (r.1.2.2 : ℝ) * pmiRow (validItemGroups R m gmax) r ∧
    totalFrequency (validItemGroups R m gmax) =
      ∑ i ∈ validItems R m, freqOn (validItemGroups R m gmax) i := by
  simp only [finalJoinRows, Finset.mem_filter, Finset.mem_product] at hr
  obtain ⟨⟨-, hb, hc⟩, h1, h2⟩ := hr
  refine ⟨?_, rfl, ?_⟩
  · have eb := mem_itemFrequencyTable hb
    have ec := mem_itemFrequencyTable hc
    rw [pmiRow, pmiFormulaSpec, eb, ec, ← h1, ← h2]
  · exact Finset.sum_subset (itemsOf_validItemGroups_subset R m gmax)
      (fun i _ hni => freqOn_eq_zero_of_not_mem hni)

/-- Witness for c4_pmi_formula on the two-item relation. -/
theorem c4_pmi_formula_witness :
    pmiRow (validItemGroups relTwoItems 1 100) ((1, 2, 1), (1, 1), (2, 1)) =
      pmiFormulaSpec 1
        (freqOn (validItemGroups relTwoItems 1 100) 1)
        (freqOn (validItemGroups relTwoItems 1 100) 2)
        (totalFrequency (validItemGroups relTwoItems 1 100)) ∧
    trainerScoreRow (validItemGroups relTwoItems 1 100) ((1, 2, 1), (1, 1), (2, 1)) =
      ((1 : ℕ) : ℝ) * pmiRow (validItemGroups relTwoItems 1 100) ((1, 2, 1), (1, 1), (2, 1)) ∧
    totalFrequency (validItemGroups relTwoItems 1 100) =
      ∑ i ∈ validItems relTwoItems 1, freqOn (validItemGroups relTwoItems 1 100) i :=
  c4_pmi_formula relTwoItems 1 100 ((1, 2, 1), (1, 1), (2, 1)) (by decide)

/-- Claim C5: every self row of the table after the UNION ALL carries the
frequency computed on the filtered relation valid_item_groups, and on the
singleton-group relation that post-filter frequency genuinely differs from
the frequency of the original unfiltered relation. -/
theorem c5_self_pair :
    (∀ (R : Rel) (m gmax : ℕ) (row : ℕ × ℕ × ℕ),
      row ∈ coocTable2 (validItemGroups R m gmax) → row.1 = row.2.1 →
        row.2.2 = freqOn (validItemGroups R m gmax) row.1) ∧
    freqOn (validItemGroups relSingletonGroup 1 100) 1 ≠ freqOn relSingletonGroup 1 := by
  constructor
  · intro R m gmax row hrow hself
    rcases mem_coocTable2 hrow with h | ⟨i, -, hrow'⟩
    · exact absurd hself (coocTable_lt h).ne
    · simp [hrow']
  · decide

/-- Witness for the universally quantified part of c5_self_pair, applied to
the self row (1, 1, 1) of the two-item relation. -/
theorem c5_self_pair_witness :
    (1 : ℕ) = freqOn (validItemGroups relTwoItems 1 100) 1 :=
  c5_self_pair.1 relTwoItems 1 100 (1, 1, 1) (by decide) rfl

/-- Claim C6: the MAX-aggregated merge of the negative-sample pairs never
decreases a count: every pre-merge row's pair survives the merge with a
count at least as large.  The merge is the spec-modelled step 4, since the
committed SQL of that branch cannot execute. -/
theorem c6_merge_monotone (T : Finset (ℕ × ℕ × ℕ)) (topSet : Finset ℕ)
    (r : ℕ × ℕ × ℕ) (hr : r ∈ T) :
    ∃ r' ∈ mergeNegatives T (negativePairsFrom topSet),
      r'.1 = r.1 ∧ r'.2.1 = r.2.1 ∧ r.2.2 ≤ r'.2.2 := by
  classical
  set merged := T ∪ (negativePairsFrom topSet).image (fun p => (p.1, p.2, (1 : ℕ)))
    with hmerged
  have hrm : r ∈ merged := Finset.mem_union_left _ hr
  refine ⟨(r.1, r.2.1,
    (merged.filter (fun x => x.1 = r.1 ∧ x.2.1 = r.2.1)).sup (fun x => x.2.2)),
    ?_, rfl, rfl, ?_⟩
  · simp only [mergeNegatives, ← hmerged]
    exact Finset.mem_image.mpr
      ⟨(r.1, r.2.1), Finset.mem_image.mpr ⟨r, hrm, rfl⟩, rfl⟩
  · have hmem : r ∈ merged.filter (fun x => x.1 = r.1 ∧ x.2.1 = r.2.1) :=
      Finset.mem_filter.mpr ⟨hrm, rfl, rfl⟩
    show r.2.2 ≤
      (merged.filter (fun x => x.1 = r.1 ∧ x.2.1 = r.2.1)).sup (fun x => x.2.2)
    exact Finset.le_sup (f := fun x => x.2.2) hmem

/-- Witness for c6_merge_monotone at the table {(1,2,5)} and top set {1,2}. -/
theorem c6_merge_monotone_witness :
    ∃ r' ∈ mergeNegatives {((1 : ℕ), (2 : ℕ), (5 : ℕ))} (negativePairsFrom {1, 2}),
      r'.1 = ((1 : ℕ), (2 : ℕ), (5 : ℕ)).1 ∧
      r'.2.1 = ((1 : ℕ), (2 : ℕ), (5 : ℕ)).2.1 ∧
      ((1 : ℕ), (2 : ℕ), (5 : ℕ)).2.2 ≤ r'.2.2 :=
  c6_merge_monotone {(1, 2, 5)} {1, 2} (1, 2, 5) (by decide)

/-- Claim C9, counterexample: with the invalid configuration
min_item_frequency = 0 the procedure is not rejected at entry; it runs and
produces a non-empty co-occurrence table on the two-item relation. -/
theorem c9_counterexample :
    coocTable2 (validItemGroups relTwoItems 0 100) ≠ ∅ := by decide

/-- Claim C9, amended: the procedures perform no configuration validation;
any values flow into the computation, where min_item_frequency ≤ 0 simply
admits every item of the relation and max_group_size < 2 simply yields an
empty valid-group set, never an entry-time rejection. -/
theorem c9_no_validation :
    (∀ R : Rel, validItems R 0 = itemsOf R) ∧
    (∀ (R : Rel) (m : ℕ), validGroups R m 1 = ∅) := by
  constructor
  · intro R
    simp [validItems]
  · intro R m
    rw [Finset.eq_empty_iff_forall_not_mem]
    intro g hg
    simp only [validGroups, Finset.mem_filter] at hg
    omega

end PmiSpec

namespace ExplorerSpec

/-- bump keeps the vector length. -/
lemma length_bump (v : List ℚ) (i : ℕ) (w : ℚ) : (bump v i w).length = v.length :=
  List.length_set v i _

/-- applyRow keeps the vector length. -/
lemma length_applyRow (v : List ℚ) (ws : List WeightEntry) :
    (applyRow v ws).length = v.length := by
  induction ws generalizing v with
  | nil => rfl
  | cons e rest ih =>
    have step : applyRow v (e :: rest) = applyRow (bump v (e.factor - 1) e.weight) rest := rfl
    rw [step, ih, length_bump]

/-- Reading position p after a bump at position i: the weight lands exactly
at position i and every other position is untouched. -/
lemma getD_bump (v : List ℚ) (i p : ℕ) (w : ℚ) (hp : p < v.length) :
    (bump v i w).getD p 0 = if i = p then v.getD p 0 + w else v.getD p 0 := by
  unfold bump
  by_cases h : i = p
  · subst h
    rw [if_pos rfl, List.getD_eq_getElem _ _ (by simpa using hp),
      List.getElem_set_self, List.getD_eq_getElem _ _ hp]
  · rw [if_neg h, List.getD_eq_getElem _ _ (by simpa using hp),
      List.getElem_set_ne h, List.getD_eq_getElem _ _ hp]

/-- Reading position p after folding one row's factor_weights: each in-range
entry with factor = p + 1 adds its weight at position p. -/
lemma getD_applyRow (ws : List WeightEntry) (v : List ℚ) (p : ℕ)
    (hp : p < v.length)
    (hws : ∀ e ∈ ws, 1 ≤ e.factor ∧ e.factor ≤ v.length) :
    (applyRow v ws).getD p 0 =
      v.getD p 0 +
        ((ws.filter (fun e => e.factor = p + 1)).map (fun e => e.weight)).sum := by
  induction ws generalizing v with
  | nil => simp [applyRow]
  | cons e rest ih =>
    have he := hws e (List.mem_cons_self e rest)
    have hrest : ∀ x ∈ rest, 1 ≤ x.factor ∧ x.factor ≤ (bump v (e.factor - 1) e.weight).length := by
      intro x hx
      rw [length_bump]
      exact hws x (List.mem_cons_of_mem e hx)
    have step : applyRow v (e :: rest) = applyRow (bump v (e.factor - 1) e.weight) rest := rfl
    rw [step, ih _ (by rw [length_bump]; exact hp) hrest,
      getD_bump v _ p e.weight hp]
    by_cases hf : e.factor = p + 1
    · rw [if_pos (by omega), List.filter_cons_of_pos (by simp [hf]), List.map_cons,
        List.sum_cons]
      ring
    · rw [if_neg (by omega), List.filter_cons_of_neg (by simp [hf])]

/-- Reading position p after folding a list of rows. -/
lemma getD_foldRows (rows : List EmbeddingRow) (v : List ℚ) (p : ℕ)
    (hp : p < v.length)
    (h : ∀ r ∈ rows, ∀ e ∈ r.factor_weights, 1 ≤ e.factor ∧ e.factor ≤ v.length) :
    (rows.foldl (fun acc r => applyRow acc r.factor_weights) v).getD p 0 =
      v.getD p 0 +
        (rows.map (fun r =>
          ((r.factor_weights.filter (fun e => e.factor = p + 1)).map
            (fun e => e.weight)).sum)).sum := by
  induction rows generalizing v with
  | nil => simp
  | cons r rest ih =>
    have hr := h r (List.mem_cons_self r rest)
    have hrest : ∀ x ∈ rest, ∀ e ∈ x.factor_weights,
        1 ≤ e.factor ∧ e.factor ≤ (applyRow v r.factor_weights).length := by
      intro x hx e hex
      rw [length_applyRow]
      exact h x (List.mem_cons_of_mem r hx) e hex
    rw [List.foldl_cons, ih _ (by rw [length_applyRow]; exact hp) hrest,
      getD_applyRow _ _ _ hp hr, List.map_cons, List.sum_cons]
    ring

/-- Folding any list of rows keeps the vector length. -/
lemma length_foldRows (rows : List EmbeddingRow) (v : List ℚ) :
    (rows.foldl (fun acc r => applyRow acc r.factor_weights) v).length = v.length := by
  induction rows generalizing v with
  | nil => rfl
  | cons r rest ih => rw [List.foldl_cons, ih, length_applyRow]

/-- Claim C7: the embedding builder yields, for any item, a dense vector of
the fixed dimensionality, whose entry at every position p is the sum of the
weights of all factor entries with factor index p + 1 across all rows of
that item (accumulated, not overwritten); and on the single-row,
single-factor input (feature 7, factor 1, weight 2) the item's vector is
2 followed by zeros. -/
theorem c7_embedding_builder (results : List EmbeddingRow) (item : ℕ)
    (h : ∀ r ∈ results, ∀ e ∈ r.factor_weights,
      1 ≤ e.factor ∧ e.factor ≤ embeddingDim) :
    (itemEmbedding results item).length = embeddingDim ∧
    (∀ p < embeddingDim, (itemEmbedding results item).getD p 0 =
      ((results.filter (fun r => r.feature = item)).map (fun r =>
        ((r.factor_weights.filter (fun e => e.factor = p + 1)).map
          (fun e => e.weight)).sum)).sum) ∧
    itemEmbedding [⟨7, [⟨1, 2⟩]⟩] 7 = 2 :: List.replicate 99 0 := by
  refine ⟨?_, ?_, ?_⟩
  · unfold itemEmbedding
    rw [length_foldRows, List.length_replicate]
  · intro p hp
    unfold itemEmbedding
    rw [getD_foldRows _ _ _ (by simpa [embeddingDim] using hp) ?_]
    · simp
    · intro r hr e he
      have := h r (List.mem_filter.mp hr).1 e he
      simpa [embeddingDim] using this
  · show bump (List.replicate embeddingDim 0) 0 2 = 2 :: List.replicate 99 0
    unfold bump embeddingDim
    rw [show List.replicate 100 (0 : ℚ) = 0 :: List.replicate 99 0 from rfl]
    norm_num

/-- Witness for c7_embedding_builder on the single-row, single-factor input. -/
theorem c7_embedding_builder_witness :
    (itemEmbedding [⟨7, [⟨1, 2⟩]⟩] 7).length = embeddingDim ∧
    (∀ p < embeddingDim, (itemEmbedding [⟨7, [⟨1, 2⟩]⟩] 7).getD p 0 =
      (([⟨7, [⟨1, 2⟩]⟩].filter
          (fun r : EmbeddingRow => r.feature = 7)).map (fun r =>
        ((r.factor_weights.filter (fun e => e.factor = p + 1)).map
          (fun e => e.weight)).sum)).sum) ∧
    itemEmbedding [⟨7, [⟨1, 2⟩]⟩] 7 = 2 :: List.replicate 99 0 :=
  c7_embedding_builder [⟨7, [⟨1, 2⟩]⟩] 7 (by
    intro r hr e he
    rw [List.mem_singleton] at hr
    subst hr
    rw [List.mem_singleton] at he
    subst he
    exact ⟨le_refl 1, by norm_num [embeddingDim]⟩)

/-- Membership is preserved by one stable insertion step. -/
lemma mem_insertDesc {a x : ℕ × ℚ} {l : List (ℕ × ℚ)} :
    x ∈ insertDesc a l ↔ x = a ∨ x ∈ l := by
  induction l with
  | nil => simp [insertDesc]
  | cons b t ih =>
    by_cases h : b.2 ≤ a.2
    · simp [insertDesc, h]
    · simp [insertDesc, h, ih]
      tauto

/-- Membership is preserved by the stable descending sort. -/
lemma mem_sortDesc {x : ℕ × ℚ} {l : List (ℕ × ℚ)} :
    x ∈ sortDesc l ↔ x ∈ l := by
  induction l with
  | nil => simp [sortDesc]
  | cons a t ih => simp [sortDesc, mem_insertDesc, ih]

/-- An element whose key strictly dominates everything placed before it and
weakly dominates everything placed after it is sorted to the front, and the
rest sorts as if the element were absent.  This is the stability fact behind
dropping similar_items[0]: among equal keys the earlier candidate stays
first. -/
lemma sortDesc_extract (s : ℕ × ℚ) (pre post : List (ℕ × ℚ))
    (hpre : ∀ x ∈ pre, x.2 < s.2) (hpost : ∀ x ∈ post, x.2 ≤ s.2) :
    sortDesc (pre ++ s :: post) = s :: sortDesc (pre ++ post) := by
  induction pre with
  | nil =>
    simp only [List.nil_append]
    show insertDesc s (sortDesc post) = s :: sortDesc post
    cases hsp : sortDesc post with
    | nil => rfl
    | cons b t =>
      have hb : b ∈ post := mem_sortDesc.mp (hsp ▸ List.mem_cons_self b t)
      show insertDesc s (b :: t) = s :: b :: t
      rw [insertDesc, if_pos (hpost b hb)]
  | cons p pre ih =>
    have hp : p.2 < s.2 := hpre p (List.mem_cons_self p pre)
    have hpre' : ∀ x ∈ pre, x.2 < s.2 :=
      fun x hx => hpre x (List.mem_cons_of_mem p hx)
    show insertDesc p (sortDesc (pre ++ s :: post)) =
      s :: insertDesc p (sortDesc (pre ++ post))
    rw [ih hpre']
    show insertDesc p (s :: sortDesc (pre ++ post)) = _
    rw [insertDesc, if_neg (not_le.mpr hp)]

/-- The candidate list splits around the candidate at position i. -/
lemma candidates_decomp (emb : ℕ → List ℚ) (ids : List ℕ) (q i : ℕ)
    (hi : i < ids.length) :
    candidates emb ids q =
      candidates emb (ids.take i) q ++
        (ids.getD i 0, roundedSim (emb q) (emb (ids.getD i 0))) ::
          candidates emb (ids.drop (i + 1)) q := by
  have h1 : ids.take i ++ ids.getD i 0 :: ids.drop (i + 1) = ids := by
    rw [List.getD_eq_getElem _ _ hi, List.getElem_cons_drop, List.take_append_drop]
  calc candidates emb ids q
      = candidates emb (ids.take i ++ ids.getD i 0 :: ids.drop (i + 1)) q := by
        rw [h1]
    _ = _ := by unfold candidates; rw [List.map_append, List.map_cons]

/-- The candidate list of the id list without position i. -/
lemma candidates_eraseIdx (emb : ℕ → List ℚ) (ids : List ℕ) (q i : ℕ) :
    candidates emb (ids.eraseIdx i) q =
      candidates emb (ids.take i) q ++ candidates emb (ids.drop (i + 1)) q := by
  unfold candidates
  rw [List.eraseIdx_eq_take_drop_succ, List.map_append]

/-- Claim C8, amended: for a query at a position the loop visits (any but
the last), when the query item's rounded self-similarity is 1 and every
other candidate's rounded similarity is strictly below 1, the printed list
is exactly the other candidates stably sorted by descending rounded
similarity, and the query item does not appear in it. -/
theorem c8_explorer (emb : ℕ → List ℚ) (ids : List ℕ) (i : ℕ)
    (hi : i < ids.length - 1)
    (hself : roundedSim (emb (ids.getD i 0)) (emb (ids.getD i 0)) = 1)
    (hothers : ∀ x ∈ ids.eraseIdx i,
      roundedSim (emb (ids.getD i 0)) (emb x) < 1) :
    similarList emb ids (ids.getD i 0) =
      sortDesc (candidates emb (ids.eraseIdx i) (ids.getD i 0)) ∧
    ids.getD i 0 ∉ (similarList emb ids (ids.getD i 0)).map Prod.fst := by
  obtain ⟨q, hqdef⟩ : ∃ q, ids.getD i 0 = q := ⟨_, rfl⟩
  rw [hqdef] at hself hothers ⊢
  have hi' : i < ids.length := by omega
  have hmain : sortDesc (candidates emb ids q) =
      (q, roundedSim (emb q) (emb q)) ::
        sortDesc (candidates emb (ids.eraseIdx i) q) := by
    rw [candidates_decomp emb ids q i hi', candidates_eraseIdx, hqdef]
    apply sortDesc_extract
    · intro x hx
      obtain ⟨y, hy, hxy⟩ := List.mem_map.mp hx
      have hmem : y ∈ ids.eraseIdx i := by
        rw [List.eraseIdx_eq_take_drop_succ]
        exact List.mem_append_left _ hy
      have := hothers y hmem
      rw [← hxy]
      simpa [hself] using this
    · intro x hx
      obtain ⟨y, hy, hxy⟩ := List.mem_map.mp hx
      have hmem : y ∈ ids.eraseIdx i := by
        rw [List.eraseIdx_eq_take_drop_succ]
        exact List.mem_append_right _ hy
      have := hothers y hmem
      rw [← hxy]
      simpa [hself] using this.le
  have hsim : similarList emb ids q =
      sortDesc (candidates emb (ids.eraseIdx i) q) := by
    unfold similarList
    rw [hmain, List.drop_one, List.tail_cons]
  refine ⟨hsim, ?_⟩
  intro hq
  obtain ⟨x, hx, hx1⟩ := List.mem_map.mp hq
  rw [hsim] at hx
  have hx' : x ∈ candidates emb (ids.eraseIdx i) q := mem_sortDesc.mp hx
  obtain ⟨y, hy, hxy⟩ := List.mem_map.mp hx'
  have hlt := hothers y hy
  have hyq : y = q := by rw [← hxy] at hx1; exact hx1
  rw [hyq, hself] at hlt
  exact absurd hlt (lt_irrefl 1)

/-- Claim C10: when candidate j has rounded similarity exactly 1 to query
item q, every candidate before j is strictly below 1, every candidate is at
most 1, and q itself occurs after position j, then the explorer's output for
q is the stably sorted candidate list with exactly its first element
dropped, that dropped head is candidate j (not q), and q itself appears in
its own output list. -/
theorem c10_tie_behavior (emb : ℕ → List ℚ) (ids : List ℕ) (q j : ℕ)
    (hj : j < ids.length)
    (hq : q ∈ ids.drop (j + 1))
    (htie : roundedSim (emb q) (emb (ids.getD j 0)) = 1)
    (hbefore : ∀ x ∈ ids.take j, roundedSim (emb q) (emb x) < 1)
    (hall : ∀ x ∈ ids, roundedSim (emb q) (emb x) ≤ 1) :
    similarList emb ids q = (sortDesc (candidates emb ids q)).drop 1 ∧
    sortDesc (candidates emb ids q) =
      (ids.getD j 0, 1) :: sortDesc (candidates emb (ids.eraseIdx j) q) ∧
    q ∈ (similarList emb ids q).map Prod.fst := by
  have hmain : sortDesc (candidates emb ids q) =
      (ids.getD j 0, 1) :: sortDesc (candidates emb (ids.eraseIdx j) q) := by
    rw [candidates_decomp emb ids q j hj, candidates_eraseIdx, htie]
    apply sortDesc_extract
    · intro x hx
      obtain ⟨y, hy, hxy⟩ := List.mem_map.mp hx
      have := hbefore y hy
      rw [← hxy]
      simpa using this
    · intro x hx
      obtain ⟨y, hy, hxy⟩ := List.mem_map.mp hx
      have hmem : y ∈ ids := List.mem_of_mem_drop hy
      have := hall y hmem
      rw [← hxy]
      simpa using this
  refine ⟨rfl, hmain, ?_⟩
  have hsim : similarList emb ids q =
      sortDesc (candidates emb (ids.eraseIdx j) q) := by
    unfold similarList
    rw [hmain, List.drop_one, List.tail_cons]
  rw [hsim]
  have hcand : (q, roundedSim (emb q) (emb q)) ∈
      candidates emb (ids.eraseIdx j) q := by
    rw [candidates_eraseIdx]
    refine List.mem_append_right _ ?_
    exact List.mem_map.mpr ⟨q, hq, rfl⟩
  exact List.mem_map.mpr ⟨(q, roundedSim (emb q) (emb q)),
    mem_sortDesc.mpr hcand, rfl⟩

/-- dot product of the unit vector [1, 0] with itself. -/
lemma dotQ_unit_self : dotQ ([1, 0] : List ℚ) [1, 0] = 1 := by
  norm_num [dotQ]

/-- dot product of the orthogonal unit vectors [1, 0] and [0, 1]. -/
lemma dotQ_unit_orth : dotQ ([1, 0] : List ℚ) [0, 1] = 0 := by
  norm_num [dotQ]

/-- round(1.0, 5) is 1. -/
lemma round5_one : round5 1 = 1 := by
  unfold round5
  rw [one_mul, show ((100000 : ℝ)) = ((100000 : ℤ) : ℝ) by norm_num,
    round_intCast]
  norm_num

/-- round(0.0, 5) is 0. -/
lemma round5_zero : round5 0 = 0 := by
  unfold round5
  norm_num

/-- The rounded cosine similarity of [1, 0] with itself is 1. -/
lemma roundedSim_unit_self : roundedSim ([1, 0] : List ℚ) [1, 0] = 1 := by
  have h : cosineSim ([1, 0] : List ℚ) [1, 0] = 1 := by
    unfold cosineSim normR
    rw [dotQ_unit_self]
    push_cast
    rw [Real.sqrt_one]
    norm_num
  unfold roundedSim
  rw [h, round5_one]

/-- The rounded cosine similarity of [1, 0] and [0, 1] is 0. -/
lemma roundedSim_unit_orth : roundedSim ([1, 0] : List ℚ) [0, 1] = 0 := by
  have h : cosineSim ([1, 0] : List ℚ) [0, 1] = 0 := by
    unfold cosineSim
    rw [dotQ_unit_orth]
    push_cast
    simp
  unfold roundedSim
  rw [h, round5_zero]

/-- Claim C8, counterexample: on the two-item query list [10, 20] the loop
range(0, len - 1) emits an output entry for item 10 only; item 20 is in the
query list but gets no ranked list of its own. -/
theorem c8_counterexample :
    (explorerOutput embOrth [10, 20]).map Prod.fst = [10] ∧
    (20 : ℕ) ∈ ([10, 20] : List ℕ) ∧
    (20 : ℕ) ∉ (explorerOutput embOrth [10, 20]).map Prod.fst := by
  have h : (explorerOutput embOrth [10, 20]).map Prod.fst = [10] := by
    unfold explorerOutput
    rw [show List.range (List.length [(10 : ℕ), 20] - 1) = [0] from rfl]
    norm_num
  exact ⟨h, by norm_num, by rw [h]; norm_num⟩

/-- Witness for c8_explorer: query list [10, 20] with orthogonal unit
embeddings, query position 0. -/
theorem c8_explorer_witness :
    similarList embOrth [10, 20] (List.getD [10, 20] 0 0) =
      sortDesc (candidates embOrth (List.eraseIdx [10, 20] 0)
        (List.getD [10, 20] 0 0)) ∧
    List.getD [10, 20] 0 0 ∉
      (similarList embOrth [10, 20] (List.getD [10, 20] 0 0)).map Prod.fst :=
  c8_explorer embOrth [10, 20] 0 (by norm_num)
    (by
      show roundedSim ([1, 0] : List ℚ) [1, 0] = 1
      exact roundedSim_unit_self)
    (by
      intro x hx
      have hx20 : x = 20 := by simpa using hx
      subst hx20
      show roundedSim ([1, 0] : List ℚ) [0, 1] < 1
      rw [roundedSim_unit_orth]
      norm_num)

/-- Witness for c10_tie_behavior: query list [10, 20, 30], where items 10
and 20 share the embedding [1, 0] (rounded similarity 1) and item 30 is
orthogonal; the query is item 20, the tie sits at position 0 before it. -/
theorem c10_tie_behavior_witness :
    similarList embTie [10, 20, 30] 20 =
      (sortDesc (candidates embTie [10, 20, 30] 20)).drop 1 ∧
    sortDesc (candidates embTie [10, 20, 30] 20) =
      (List.getD [10, 20, 30] 0 0, 1) ::
        sortDesc (candidates embTie (List.eraseIdx [10, 20, 30] 0) 20) ∧
    20 ∈ (similarList embTie [10, 20, 30] 20).map Prod.fst :=
  c10_tie_behavior embTie [10, 20, 30] 20 0 (by norm_num)
    (by norm_num)
    (by
      show roundedSim ([1, 0] : List ℚ) [1, 0] = 1
      exact roundedSim_unit_self)
    (by
      intro x hx
      simp at hx)
    (by
      intro x hx
      have hx' : x = 10 ∨ x = 20 ∨ x = 30 := by simpa using hx
      rcases hx' with h | h | h <;> subst h
      · show roundedSim ([1, 0] : List ℚ) [1, 0] ≤ 1
        rw [roundedSim_unit_self]
      · show roundedSim ([1, 0] : List ℚ) [1, 0] ≤ 1
        rw [roundedSim_unit_self]
      · show roundedSim ([1, 0] : List ℚ) [0, 1] ≤ 1
        rw [roundedSim_unit_orth]
        norm_num)

end ExplorerSpec
